/-
Verification of the pysimgrid scheduling kernel specification against the
source under `pysimgrid/simdag`.  Times, amounts, bandwidths and latencies
are modelled as rationals; hosts and tasks are identified by names/indices.
Each Python function used by a claim is translated into an executable Lean
definition keeping the source name where possible.
-/
import Mathlib

set_option maxRecDepth 4000

/-! ### Timesheet (`algorithms/utils.py`, `timesheet_insertion`)

A timesheet entry is a `(task, start, finish)` triple. -/

structure TEntry where
  task : ℕ
  start : ℚ
  finish : ℚ
deriving DecidableEq, Repr

/-- The scanning loop of `timesheet_insertion`: walks the timesheet keeping
the previous entry's finish time (`prevFin`, initially the synthetic prefix
`(None, 0, 0)`) and the running index.  Returns the first index whose slot
satisfies `t2[1] - max(t1[2], est) > eet`, paired with the previous finish
time (`start_time = t1[2]` in the source), or `none` if the loop finishes. -/
def findSlot (est eet : ℚ) : ℚ → ℕ → List TEntry → Option (ℕ × ℚ)
  | _, _, [] => none
  | prevFin, idx, e :: rest =>
    if e.start - max prevFin est > eet then some (idx, prevFin)
    else findSlot est eet e.finish (idx + 1) rest

/-- Translation of `timesheet_insertion(timesheet, est, eet)`:
`insert_index` defaults to `len(timesheet)` and `start_time` to the last
finish (or 0); the loop may override both; finally
`start_time = max(start_time, est)` and the result is
`(insert_index, start_time, start_time + eet)`. -/
def timesheet_insertion (timesheet : List TEntry) (est eet : ℚ) : ℕ × ℚ × ℚ :=
  let dflt : ℕ × ℚ := (timesheet.length, ((timesheet.getLast?).map (·.finish)).getD 0)
  let p := (findSlot est eet 0 0 timesheet).getD dflt
  (p.1, max p.2 est, max p.2 est + eet)

/-- Helper `prevFinish ts k` is the finish time of the entry just before position
`k`, with the synthetic prefix `(None, 0, 0)` standing before position 0. -/
def prevFinish (ts : List TEntry) : ℕ → ℚ
  | 0 => 0
  | k + 1 => ((ts[k]?).map (·.finish)).getD 0

/-- Modelled from the spec: position `k` holds a gap able to receive the new
task when the displaced entry starts more than `eet` after
`max(prevFinish k, est)` (the strict inequality the source actually tests). -/
def gapFits (ts : List TEntry) (est eet : ℚ) (k : ℕ) : Bool :=
  match ts[k]? with
  | some e => decide (eet < e.start - max (prevFinish ts k) est)
  | none => false

/-- Modelled from the spec (claim wording): same as `gapFits` but accepting a
gap of width exactly `eet` (`≥` instead of `>`). -/
def gapFitsGe (ts : List TEntry) (est eet : ℚ) (k : ℕ) : Bool :=
  match ts[k]? with
  | some e => decide (eet ≤ e.start - max (prevFinish ts k) est)
  | none => false

/-- Modelled from the spec: first-fit insertion with a strict gap test.  The
lowest position whose gap strictly exceeds `eet` wins; otherwise the task is
appended after the last entry. -/
def specInsert (ts : List TEntry) (est eet : ℚ) : ℕ × ℚ × ℚ :=
  let pos := match (List.range ts.length).find? (gapFits ts est eet) with
    | some k => k
    | none => ts.length
  (pos, max (prevFinish ts pos) est, max (prevFinish ts pos) est + eet)

/-- Modelled from the spec (claim wording): first-fit insertion accepting
gaps of width exactly `eet` (`s_next - max(f_prev, est) ≥ eet`). -/
def specInsertGe (ts : List TEntry) (est eet : ℚ) : ℕ × ℚ × ℚ :=
  let pos := match (List.range ts.length).find? (gapFitsGe ts est eet) with
    | some k => k
    | none => ts.length
  (pos, max (prevFinish ts pos) est, max (prevFinish ts pos) est + eet)

/-- The Timesheet of the spec's gap-fill test: `[(A,0,5),(B,10,12)]`. -/
def exampleTS : List TEntry := [⟨1, 0, 5⟩, ⟨2, 10, 12⟩]

/-- A timesheet whose inter-entry gap has width exactly 3: `[(A,0,5),(B,8,12)]`. -/
def exampleTS2 : List TEntry := [⟨1, 0, 5⟩, ⟨2, 8, 12⟩]

theorem findSlot_eq_find (est eet : ℚ) (ts : List TEntry) :
    ∀ (rest : List TEntry) (i : ℕ), ts.drop i = rest →
      findSlot est eet (prevFinish ts i) i rest
        = ((List.range' i (ts.length - i)).find? (gapFits ts est eet)).map
            (fun k => (k, prevFinish ts k)) := by
  intro rest
  induction rest with
  | nil =>
    intro i hdrop
    have hle : ts.length ≤ i := List.drop_eq_nil_iff.mp hdrop
    have : ts.length - i = 0 := Nat.sub_eq_zero_of_le hle
    simp [findSlot, this]
  | cons e rest ih =>
    intro i hdrop
    have hlt : i < ts.length := by
      by_contra hge
      rw [List.drop_eq_nil_iff.mpr (Nat.le_of_not_lt hge)] at hdrop
      exact List.noConfusion hdrop
    have hcons := List.drop_eq_getElem_cons (l := ts) hlt
    rw [hdrop] at hcons
    injection hcons with h1 h2
    have htail : ts.drop (i + 1) = rest := h2.symm
    have hget? : ts[i]? = some e := by
      rw [List.getElem?_eq_getElem hlt, h1]
    have hlen : ts.length - i = (ts.length - (i + 1)) + 1 := by omega
    have hfit : gapFits ts est eet i
        = decide (eet < e.start - max (prevFinish ts i) est) := by
      simp [gapFits, hget?]
    rw [hlen, List.range'_succ]
    by_cases hc : eet < e.start - max (prevFinish ts i) est
    · rw [List.find?_cons_of_pos _ (by rw [hfit]; exact decide_eq_true hc)]
      simp [findSlot, hc]
    · rw [List.find?_cons_of_neg _ (by rw [hfit]; simpa using hc)]
      have hpf : prevFinish ts (i + 1) = e.finish := by
        simp [prevFinish, hget?]
      have := ih (i + 1) htail
      rw [hpf] at this
      simp only [findSlot, if_neg hc]
      exact this

theorem timesheet_insertion_eq_specInsert (ts : List TEntry) (est eet : ℚ) :
    timesheet_insertion ts est eet = specInsert ts est eet := by
  have hmain := findSlot_eq_find est eet ts ts 0 (List.drop_zero ts)
  have h0 : prevFinish ts 0 = 0 := rfl
  rw [h0] at hmain
  have hrange : List.range' 0 (ts.length - 0) = List.range ts.length := by
    rw [Nat.sub_zero, List.range_eq_range']
  rw [hrange] at hmain
  have hlast : ((ts.getLast?).map (·.finish)).getD 0 = prevFinish ts ts.length := by
    cases ts with
    | nil => rfl
    | cons a l =>
      rw [List.getLast?_eq_getElem?]
      simp only [prevFinish, List.length_cons, Nat.add_sub_cancel]
  unfold timesheet_insertion specInsert
  cases hfind : (List.range ts.length).find? (gapFits ts est eet) with
  | none => rw [hmain, hfind]; simp [hlast]
  | some k => rw [hmain, hfind]; simp

/-- C1.  The claim's `≥` gap test disagrees with the source on a timesheet
whose gap width is exactly `eet`: the claim demands insertion into the gap at
position 1 giving `(1, 5, 8)`, while `timesheet_insertion` skips the gap
(its test is strict) and appends, returning `(2, 12, 15)`. -/
theorem c1_ge_gap_counterexample :
    specInsertGe exampleTS2 0 3 = (1, 5, 8) ∧
      timesheet_insertion exampleTS2 0 3 = (2, 12, 15) ∧
      timesheet_insertion exampleTS2 0 3 ≠ (1, 5, 8) := by
  refine ⟨?_, ?_, ?_⟩
  · norm_num [specInsertGe, gapFitsGe, prevFinish, exampleTS2, List.range, List.range.loop]
  · norm_num [timesheet_insertion, findSlot, exampleTS2]
  · norm_num [timesheet_insertion, findSlot, exampleTS2]

/-- C1 (amended).  `timesheet_insertion` is gap-aware first-fit with an EST
lower bound and a *strict* gap test: the first position `k` (scanning with
the synthetic `(_,0,0)` prefix) with `s_k - max(f_prev, est) > eet` receives
the task with `start = max(f_prev, est)`, `finish = start + eet`; if no gap
qualifies the task is appended with `start = max(last_finish, est)` (or
`est` on an empty timesheet).  The spec's concrete example
`insert(est=0, eet=3)` into `[(A,0,5),(B,10,12)]` returns `(1, 5, 8)`. -/
theorem c1_timesheet_insertion_first_fit :
    (∀ (ts : List TEntry) (est eet : ℚ),
        timesheet_insertion ts est eet = specInsert ts est eet) ∧
      timesheet_insertion exampleTS 0 3 = (1, 5, 8) := by
  refine ⟨timesheet_insertion_eq_specInsert, ?_⟩
  norm_num [timesheet_insertion, findSlot, exampleTS]

/-! ### Timesheet invariants (C5): `update_schedule_state` in
`algorithms/utils.py` inserts the returned `(task, start, finish)` at the
returned position. -/

/-- One scheduling update: run `timesheet_insertion` and insert the produced
entry at the produced position (`schedule[host].insert(pos, (task, start,
finish))` in `update_schedule_state`). -/
def ts_update (ts : List TEntry) (tid : ℕ) (est eet : ℚ) : List TEntry :=
  let r := timesheet_insertion ts est eet
  List.insertIdx r.1 ⟨tid, r.2.1, r.2.2⟩ ts

/-- Replay of a full sequence of scheduling updates on an initially empty
timesheet, one `(task, est, eet)` request at a time. -/
def ts_run (reqs : List (ℕ × ℚ × ℚ)) : List TEntry :=
  reqs.foldl (fun ts r => ts_update ts r.1 r.2.1 r.2.2) []

/-- The Timesheet invariant: consecutive entries satisfy
`finish[i] ≤ start[i+1]`, and every start is nonnegative. -/
def ts_ordered (ts : List TEntry) : Prop :=
  ts.Chain' (fun a b => a.finish ≤ b.start) ∧ ∀ e ∈ ts, 0 ≤ e.start

theorem chain'_insertIdx {α : Type _} {R : α → α → Prop} :
    ∀ (k : ℕ) (l : List α) (x : α), k ≤ l.length → l.Chain' R →
      (∀ (j : ℕ) (hjl : j < l.length), k = j + 1 → R (l.get ⟨j, hjl⟩) x) →
      (∀ (hk : k < l.length), R x (l.get ⟨k, hk⟩)) →
      (List.insertIdx k x l).Chain' R
  | 0, l, x, _, hch, _, hnext => by
    rw [List.insertIdx_zero]
    refine List.chain'_cons'.mpr ⟨?_, hch⟩
    intro y hy
    cases l with
    | nil => simp at hy
    | cons a l' =>
      have hya : a = y := by simpa using hy
      subst hya
      exact hnext (by simp)
  | k + 1, [], x, hk, _, _, _ => by
    rw [List.insertIdx_succ_nil]
    exact List.chain'_nil
  | k + 1, a :: l', x, hk, hch, hprev, hnext => by
    rw [List.insertIdx_succ_cons]
    refine List.chain'_cons'.mpr ⟨?_, ?_⟩
    · intro y hy
      cases k with
      | zero =>
        rw [List.insertIdx_zero] at hy
        have hyx : x = y := by simpa using hy
        subst hyx
        exact hprev 0 (by simp) rfl
      | succ m =>
        cases l' with
        | nil => simp at hk
        | cons b l'' =>
          rw [List.insertIdx_succ_cons] at hy
          have hyb : b = y := by simpa using hy
          subst hyb
          exact (List.chain'_cons.mp hch).1
    · refine chain'_insertIdx k l' x (by simpa using hk) hch.tail ?_ ?_
      · intro j hjl hkj
        have h := hprev (j + 1) (by simpa using Nat.succ_lt_succ hjl) (by omega)
        simpa using h
      · intro hklt
        have h := hnext (by simpa using Nat.succ_lt_succ hklt)
        simpa using h

theorem prevFinish_succ (ts : List TEntry) (j : ℕ) (hj : j < ts.length) :
    prevFinish ts (j + 1) = (ts.get ⟨j, hj⟩).finish := by
  simp [prevFinish, List.getElem?_eq_getElem hj]

/-- Case analysis on `specInsert`: either the scan found a qualifying gap at
a position `k < length` (with the strict slot condition), or it appends. -/
theorem specInsert_cases (ts : List TEntry) (est eet : ℚ) :
    (∃ (k : ℕ) (hk : k < ts.length),
        specInsert ts est eet
            = (k, max (prevFinish ts k) est, max (prevFinish ts k) est + eet) ∧
          eet < (ts.get ⟨k, hk⟩).start - max (prevFinish ts k) est) ∨
      specInsert ts est eet
          = (ts.length, max (prevFinish ts ts.length) est,
              max (prevFinish ts ts.length) est + eet) := by
  unfold specInsert
  cases hfind : (List.range ts.length).find? (gapFits ts est eet) with
  | none => right; rfl
  | some k =>
    left
    have hk : k < ts.length := List.mem_range.mp (List.mem_of_find?_eq_some hfind)
    refine ⟨k, hk, rfl, ?_⟩
    have hgap : gapFits ts est eet k = true := List.find?_some hfind
    unfold gapFits at hgap
    rw [List.getElem?_eq_getElem hk] at hgap
    simpa using hgap

theorem ts_update_ordered (ts : List TEntry) (tid : ℕ) (est eet : ℚ)
    (hv : ts_ordered ts) (hest : 0 ≤ est) :
    ts_ordered (ts_update ts tid est eet) := by
  obtain ⟨hchain, hstarts⟩ := hv
  unfold ts_update
  rw [timesheet_insertion_eq_specInsert]
  rcases specInsert_cases ts est eet with ⟨k, hk, heq, hgap⟩ | heq <;> rw [heq]
  · constructor
    · refine chain'_insertIdx k ts _ (le_of_lt hk) hchain ?_ ?_
      · intro j hjl hkj
        subst hkj
        rw [prevFinish_succ ts j hjl]
        exact le_max_left _ _
      · intro hklt
        have : max (prevFinish ts k) est + eet < (ts.get ⟨k, hklt⟩).start := by
          have := hgap
          have hsame : (ts.get ⟨k, hk⟩) = (ts.get ⟨k, hklt⟩) := rfl
          rw [hsame] at this
          linarith
        exact le_of_lt this
    · intro e he
      rcases (List.mem_insertIdx (le_of_lt hk)).mp he with h | h
      · subst h; exact le_trans hest (le_max_right _ _)
      · exact hstarts e h
  · constructor
    · refine chain'_insertIdx ts.length ts _ le_rfl hchain ?_ ?_
      · intro j hjl hkj
        have hpf : prevFinish ts ts.length = prevFinish ts (j + 1) := by rw [hkj]
        rw [hpf, prevFinish_succ ts j hjl]
        simp
      · intro hklt
        exact absurd hklt (lt_irrefl _)
    · intro e he
      rcases (List.mem_insertIdx le_rfl).mp he with h | h
      · subst h; exact le_trans hest (le_max_right _ _)
      · exact hstarts e h

/-- C5.  Any timesheet reachable from the empty timesheet by scheduling
updates with nonnegative `est` requests satisfies the monotonicity
invariant: `finish[i] ≤ start[i+1]` for consecutive entries and
`start ≥ 0` everywhere. -/
theorem c5_timesheet_invariant (reqs : List (ℕ × ℚ × ℚ))
    (h : ∀ r ∈ reqs, 0 ≤ r.2.1) : ts_ordered (ts_run reqs) := by
  suffices hgen : ∀ (l : List (ℕ × ℚ × ℚ)) (ts : List TEntry), ts_ordered ts →
      (∀ r ∈ l, 0 ≤ r.2.1) →
      ts_ordered (l.foldl (fun ts r => ts_update ts r.1 r.2.1 r.2.2) ts) by
    exact hgen reqs [] ⟨List.chain'_nil, by intro e he; simp at he⟩ h
  intro l
  induction l with
  | nil => intro ts hts _; exact hts
  | cons r l ih =>
    intro ts hts hl
    exact ih _ (ts_update_ordered ts r.1 r.2.1 r.2.2 hts (hl r (by simp)))
      (fun s hs => hl s (by simp [hs]))

/-- C5 witness: a concrete three-request run (out-of-order finish times force
a genuine gap insertion) satisfies the invariant. -/
theorem c5_timesheet_invariant_witness :
    ts_ordered (ts_run [(1, 0, 5), (2, 10, 2), (3, 0, 3)]) :=
  c5_timesheet_invariant [(1, 0, 5), (2, 10, 2), (3, 0, 3)] (by decide)

/-! ### Parent data-ready times (C3): `parent_data_ready_time` in
`algorithms/utils.py`, and the `est` computation of `peft.py` /
`lookahead.py` (`max([tasks_info[p]["end_time"] ...] + [0])`). -/

/-- Translation of `parent_data_ready_time`: the parent's `ect` alone when
the parent's host index equals the target host index, otherwise
`ect + weight / bandwidth[src][dst] + latency[src][dst]`. -/
def parent_data_ready_time (src_idx dst_idx : ℕ) (parent_ect weight : ℚ)
    (bandwidth latency : ℕ → ℕ → ℚ) : ℚ :=
  if src_idx = dst_idx then parent_ect
  else parent_ect + weight / bandwidth src_idx dst_idx + latency src_idx dst_idx

/-- Python `max` over a nonempty list (left fold of `max` from the head);
0 for the empty list (which Python would reject). -/
def pyMax : List ℚ → ℚ
  | [] => 0
  | x :: xs => xs.foldl max x

/-- The earliest start time computed by `PEFTScheduler.get_schedule` and
`LookaheadScheduler.get_schedule`:
`est = max([tasks_info[p]["end_time"] for p in parents if p in tasks_info] + [0])`,
taking the scheduled parents' end times only — no communication term. -/
def lookahead_est (parent_end_times : List ℚ) : ℚ :=
  pyMax (parent_end_times ++ [0])

theorem pyMax_foldl_aux (l : List ℚ) : ∀ (a b : ℚ),
    l.foldl max (max a b) = max a (l.foldl max b) := by
  induction l with
  | nil => intro a b; simp
  | cons c l ih =>
    intro a b
    simp only [List.foldl_cons]
    rw [max_assoc, ih]

theorem lookahead_est_eq_foldl (ends : List ℚ) :
    lookahead_est ends = ends.foldl max 0 := by
  cases ends with
  | nil => simp [lookahead_est, pyMax]
  | cons x xs =>
    simp only [lookahead_est, pyMax, List.cons_append, List.foldl_cons,
      List.foldl_append, List.foldl_nil]
    rw [show max (0 : ℚ) x = max 0 x from rfl, pyMax_foldl_aux]
    rw [max_comm (xs.foldl max x) 0]

/-- C3.  The claim's formula (parent completion plus estimated communication
time) disagrees with the earliest start time actually used by
`peft.py`/`lookahead.py`: with a single parent finishing at 10 on host 0,
an edge of 5 bytes, bandwidth 1 and latency 1 towards host 1, the claim
demands `est = 16` (as `parent_data_ready_time` computes), but the
schedulers use `est = 10`, ignoring communication. -/
theorem c3_est_counterexample :
    parent_data_ready_time 0 1 10 5 (fun _ _ => 1) (fun _ _ => 1) = 16 ∧
      lookahead_est [10] = 10 ∧ (10 : ℚ) ≠ 16 := by
  refine ⟨?_, ?_, ?_⟩
  · norm_num [parent_data_ready_time]
  · norm_num [lookahead_est, pyMax]
  · norm_num

/-- C3 (amended).  `parent_data_ready_time` (used by the schedulers that
query the platform model) equals parent `ect` plus the edge's communication
time — `weight/bandwidth + latency` across hosts, 0 on the same host — while
`PEFTScheduler.get_schedule` and `LookaheadScheduler.get_schedule` instead
use the maximum of the scheduled parents' end times with no communication
term (and 0 when no parent is scheduled). -/
theorem c3_data_ready_time :
    (∀ (src dst : ℕ) (ect w : ℚ) (bw lat : ℕ → ℕ → ℚ),
        parent_data_ready_time src dst ect w bw lat
          = ect + (if src = dst then 0 else w / bw src dst + lat src dst)) ∧
      ∀ (ends : List ℚ), lookahead_est ends = ends.foldl max 0 := by
  constructor
  · intro src dst ect w bw lat
    unfold parent_data_ready_time
    by_cases h : src = dst
    · simp [h]
    · simp [h, add_assoc]
  · exact lookahead_est_eq_foldl

/-! ### Run exit check (C8): `Scheduler._check_done` in `scheduler.py`
filters **all** tasks (communication tasks included) whose state is not
`done` and raises naming them. -/

inductive TKind where
  | computation
  | communication
deriving DecidableEq, Repr

inductive TState where
  | not_scheduled
  | schedulable
  | scheduled
  | runnable
  | running
  | done
  | failed
deriving DecidableEq, Repr

structure SimTask where
  name : String
  kind : TKind
  state : TState
deriving DecidableEq, Repr

/-- Translation of `_check_done`: collect
`all_tasks.by_prop("state", TASK_STATE_DONE, True)` (every task, of any
kind, whose state differs from `done`) and fail with their names if any. -/
def check_done (tasks : List SimTask) : Except (List String) Unit :=
  let unfinished := tasks.filter (fun t => t.state ≠ TState.done)
  if unfinished.isEmpty then Except.ok () else Except.error (unfinished.map (·.name))

/-- Task list with every computation task done but a communication task
still running. -/
def c8ex : List SimTask :=
  [⟨"a", TKind.computation, TState.done⟩,
   ⟨"c", TKind.communication, TState.running⟩]

/-- C8.  The claim's success condition ("every non-communication task done")
is weaker than the code's: with all computation tasks done but one
communication task still running, `_check_done` raises anyway. -/
theorem c8_check_done_counterexample :
    (∀ t ∈ c8ex, t.kind = TKind.computation → t.state = TState.done) ∧
      check_done c8ex = Except.error ["c"] := by
  constructor
  · decide
  · rfl

/-- C8 (amended).  A scheduler run succeeds iff **every** task — including
communication tasks — is `done` at simulator quiescence; otherwise
`_check_done` (invoked right after `simulate()`) raises an error naming
exactly the tasks that are not done. -/
theorem c8_check_done (tasks : List SimTask) :
    (check_done tasks = Except.ok () ↔ ∀ t ∈ tasks, t.state = TState.done) ∧
      ∀ names, check_done tasks = Except.error names →
        names = (tasks.filter (fun t => t.state ≠ TState.done)).map (·.name) ∧
          names ≠ [] := by
  have hiff : tasks.filter (fun t => t.state ≠ TState.done) = []
      ↔ ∀ t ∈ tasks, t.state = TState.done := by
    constructor
    · intro hf t ht
      have hexc := List.filter_eq_nil_iff.mp hf t ht
      simpa using hexc
    · intro hall
      apply List.filter_eq_nil_iff.mpr
      intro t ht
      simp [hall t ht]
  by_cases h : tasks.filter (fun t => t.state ≠ TState.done) = []
  · have hok : check_done tasks = Except.ok () := by
      unfold check_done
      simp
      exact hiff.mp h
    refine ⟨⟨fun _ => hiff.mp h, fun _ => hok⟩, ?_⟩
    intro names heq
    rw [hok] at heq
    exact absurd heq (by simp)
  · have herr : check_done tasks
        = Except.error ((tasks.filter (fun t => t.state ≠ TState.done)).map (·.name)) := by
      have hnall : ¬ ∀ t ∈ tasks, t.state = TState.done := fun hall => h (hiff.mpr hall)
      unfold check_done
      simp [hnall]
    refine ⟨⟨?_, ?_⟩, ?_⟩
    · intro hok
      rw [herr] at hok
      exact absurd hok (by simp)
    · intro hall
      exact absurd (hiff.mpr hall) h
    · intro names heq
      rw [herr] at heq
      injection heq with h2
      refine ⟨h2.symm, ?_⟩
      intro habs
      apply h
      have hmapnil : (tasks.filter (fun t => t.state ≠ TState.done)).map (·.name) = [] := by
        rw [h2, habs]
      exact List.map_eq_nil_iff.mp hmapnil

/-- C8 witness: at a concrete all-done task list the run check succeeds. -/
theorem c8_check_done_witness :
    check_done [⟨"a", TKind.computation, TState.done⟩] = Except.ok () :=
  (c8_check_done [⟨"a", TKind.computation, TState.done⟩]).1.mpr (by decide)

/-! ### Scheduler construction check (C9): `Scheduler.__init__` in
`scheduler.py` refuses `QUEUE_ECT` unless `type(self).__name__` is listed
in `['HEFT', 'Lookahead']`. -/

inductive DataTransferMode where
  | EAGER
  | LAZY
  | PREFETCH
  | QUEUE
  | QUEUE_ECT
  | PARENTS
  | LAZY_PARENTS
deriving DecidableEq, Repr

/-- Translation of the mode check in `Scheduler.__init__`: with
`QUEUE_ECT` selected, raise unless the scheduler class name is `HEFT` or
`Lookahead`; any other mode always passes. -/
def scheduler_init_check (algo : String) (mode : DataTransferMode) : Except String Unit :=
  if mode = DataTransferMode.QUEUE_ECT then
    if algo ∈ ["HEFT", "Lookahead"] then Except.ok ()
    else Except.error (algo ++ " does not support QUEUE_ECT mode")
  else Except.ok ()

/-- C9.  The `QUEUE_ECT` gate accepts exactly the class names `HEFT` and
`Lookahead` and every algorithm under any other mode — but the classes
actually defined in `algorithms/heft.py` and `algorithms/lookahead.py` of
this tree are named `HEFTScheduler` and `LookaheadScheduler`, so
constructing them with `QUEUE_ECT` raises even though they are the HEFT and
Lookahead algorithms the claim (and `algorithms/__init__.py`, which imports
the names `HEFT` and `Lookahead`) expects to pass. -/
theorem c9_queue_ect_check :
    scheduler_init_check "HEFT" DataTransferMode.QUEUE_ECT = Except.ok () ∧
      scheduler_init_check "Lookahead" DataTransferMode.QUEUE_ECT = Except.ok () ∧
      (∀ algo, algo ∉ ["HEFT", "Lookahead"] →
        scheduler_init_check algo DataTransferMode.QUEUE_ECT
          = Except.error (algo ++ " does not support QUEUE_ECT mode")) ∧
      (∀ algo mode, mode ≠ DataTransferMode.QUEUE_ECT →
        scheduler_init_check algo mode = Except.ok ()) ∧
      scheduler_init_check "HEFTScheduler" DataTransferMode.QUEUE_ECT
        = Except.error "HEFTScheduler does not support QUEUE_ECT mode" := by
  refine ⟨rfl, rfl, ?_, ?_, rfl⟩
  · intro algo halgo
    unfold scheduler_init_check
    rw [if_pos rfl, if_neg halgo]
  · intro algo mode hmode
    unfold scheduler_init_check
    rw [if_neg hmode]

/-- C9 witness: the gate rejects the `OLB` class under `QUEUE_ECT` and
accepts it under the default `EAGER` mode. -/
theorem c9_queue_ect_check_witness :
    scheduler_init_check "OLB" DataTransferMode.QUEUE_ECT
        = Except.error "OLB does not support QUEUE_ECT mode" ∧
      scheduler_init_check "OLB" DataTransferMode.EAGER = Except.ok () :=
  ⟨c9_queue_ect_check.2.2.1 "OLB" (by decide),
   c9_queue_ect_check.2.2.2.1 "OLB" DataTransferMode.EAGER (by decide)⟩

/-! ### Dispatch dependencies (C7): the SEQUENTIAL branch of
`StaticScheduler.run` in `scheduler.py` (lines 217–238). -/

inductive TaskExecutionMode where
  | SEQUENTIAL
  | PARALLEL
deriving DecidableEq, Repr

/-- A computational task as seen by the dispatch loop: its name and the
names of the producers of its inbound `COMM_E2E` transfers
(`comm.parents[0]` for `comm in task.parents`). -/
structure DTask where
  name : String
  parents : List String
deriving DecidableEq, Repr

def BOUNDARY_TASKS : List String := ["root", "end"]

/-- Translation of the per-host dispatch loop: walk the host's task list
keeping the previous task; skip boundary tasks and PARALLEL mode entirely;
otherwise add `prev → task` when a previous task exists and is not already
a parent of `task`. -/
def host_seq_deps (mode : TaskExecutionMode) :
    Option DTask → List DTask → List (String × String)
  | _, [] => []
  | prev, t :: rest =>
    (if t.name ∈ BOUNDARY_TASKS then []
     else if mode = TaskExecutionMode.PARALLEL then []
     else match prev with
       | none => []
       | some p => if p.name ∈ t.parents then [] else [(p.name, t.name)])
      ++ host_seq_deps mode (some t) rest

/-- Translation of the dependency-injection pass over a whole static
schedule (one `(host, task list)` entry per host). -/
def static_seq_deps (mode : TaskExecutionMode)
    (schedule : List (String × List DTask)) : List (String × String) :=
  schedule.flatMap (fun hs => host_seq_deps mode none hs.2)

/-- Modelled from the spec (amended wording): consecutive pairs of a host
task list yield a dependency when the later task is not a boundary task and
the earlier one is not already its parent. -/
def seq_dep_pairs (tasks : List DTask) : List (String × String) :=
  (tasks.zip tasks.tail).filterMap (fun pt =>
    if pt.2.name ∈ BOUNDARY_TASKS then none
    else if pt.1.name ∈ pt.2.parents then none
    else some (pt.1.name, pt.2.name))

/-- Modelled from the spec (claim wording): every consecutive pair whose
earlier member is not already a parent yields a dependency — no boundary
exclusion. -/
def seq_dep_pairs_claim (tasks : List DTask) : List (String × String) :=
  (tasks.zip tasks.tail).filterMap (fun pt =>
    if pt.1.name ∈ pt.2.parents then none
    else some (pt.1.name, pt.2.name))

theorem seq_dep_pairs_cons (p t : DTask) (rest : List DTask) :
    seq_dep_pairs (p :: t :: rest)
      = (if t.name ∈ BOUNDARY_TASKS then []
         else if p.name ∈ t.parents then [] else [(p.name, t.name)])
        ++ seq_dep_pairs (t :: rest) := by
  unfold seq_dep_pairs
  simp only [List.tail_cons, List.zip_cons_cons, List.filterMap_cons]
  by_cases hb : t.name ∈ BOUNDARY_TASKS
  · simp [hb]
  · by_cases hp : p.name ∈ t.parents
    · simp [hb, hp]
    · simp [hb, hp]

theorem host_seq_deps_sequential (tasks : List DTask) :
    host_seq_deps TaskExecutionMode.SEQUENTIAL none tasks = seq_dep_pairs tasks ∧
      ∀ p, host_seq_deps TaskExecutionMode.SEQUENTIAL (some p) tasks
        = seq_dep_pairs (p :: tasks) := by
  induction tasks with
  | nil =>
    exact ⟨rfl, fun p => rfl⟩
  | cons t rest ih =>
    constructor
    · show (if t.name ∈ BOUNDARY_TASKS then ([] : List (String × String))
          else if TaskExecutionMode.SEQUENTIAL = TaskExecutionMode.PARALLEL then []
          else []) ++ host_seq_deps TaskExecutionMode.SEQUENTIAL (some t) rest
        = seq_dep_pairs (t :: rest)
      rw [ite_self, ite_self, List.nil_append, (ih.2 t)]
    · intro p
      show (if t.name ∈ BOUNDARY_TASKS then ([] : List (String × String))
          else if TaskExecutionMode.SEQUENTIAL = TaskExecutionMode.PARALLEL then []
          else if p.name ∈ t.parents then [] else [(p.name, t.name)])
          ++ host_seq_deps TaskExecutionMode.SEQUENTIAL (some t) rest
        = seq_dep_pairs (p :: t :: rest)
      rw [(ih.2 t), seq_dep_pairs_cons]
      congr 1

theorem host_seq_deps_parallel (tasks : List DTask) :
    ∀ (prev : Option DTask), host_seq_deps TaskExecutionMode.PARALLEL prev tasks = [] := by
  induction tasks with
  | nil => intro prev; rfl
  | cons t rest ih =>
    intro prev
    show (if t.name ∈ BOUNDARY_TASKS then ([] : List (String × String))
        else if TaskExecutionMode.PARALLEL = TaskExecutionMode.PARALLEL then []
        else match prev with
          | none => []
          | some p => if p.name ∈ t.parents then [] else [(p.name, t.name)])
        ++ host_seq_deps TaskExecutionMode.PARALLEL (some t) rest = []
    rw [ih (some t)]
    by_cases hb : t.name ∈ BOUNDARY_TASKS
    · simp [hb]
    · simp [hb]

/-- Host task list `[A, end]` where `A` is not a parent of `end`. -/
def c7ex : List DTask := [⟨"a", []⟩, ⟨"end", []⟩]

/-- C7.  The claim demands a dependency for *every* consecutive pair, but
`StaticScheduler.run` skips pairs whose later task is a boundary task
(`root`/`end`): on the host list `[a, end]` with `a` not a parent of `end`,
the claim's reading yields the dependency `(a, end)` while the code adds
none. -/
theorem c7_boundary_counterexample :
    seq_dep_pairs_claim c7ex = [("a", "end")] ∧
      static_seq_deps TaskExecutionMode.SEQUENTIAL [("h", c7ex)] = [] ∧
      ("a", "end") ∉ static_seq_deps TaskExecutionMode.SEQUENTIAL [("h", c7ex)] := by
  refine ⟨?_, ?_, ?_⟩ <;> decide

/-- C7 (amended).  In SEQUENTIAL mode the dispatch pass adds the dependency
`prev → task` exactly for the consecutive pairs of each host's task list
whose later task is *not* a boundary task (`root`/`end`) and whose earlier
task is not already among the producers of the later task's inbound
transfers; in PARALLEL mode it adds nothing. -/
theorem c7_sequential_dependencies :
    (∀ (schedule : List (String × List DTask)),
        static_seq_deps TaskExecutionMode.SEQUENTIAL schedule
          = schedule.flatMap (fun hs => seq_dep_pairs hs.2)) ∧
      ∀ (schedule : List (String × List DTask)),
        static_seq_deps TaskExecutionMode.PARALLEL schedule = [] := by
  constructor
  · intro schedule
    unfold static_seq_deps
    congr 1
    funext hs
    exact (host_seq_deps_sequential hs.2).1
  · intro schedule
    unfold static_seq_deps
    induction schedule with
    | nil => rfl
    | cons hs sched ih =>
      rw [List.flatMap_cons, ih, host_seq_deps_parallel, List.nil_append]

/-! ### Master-host exclusion (C10): `prepare`/`schedule` of `olb.py`,
`mct.py` and `batch.py` draw execution hosts from
`hosts.by_prop("name", "master", True)`. -/

structure DHost where
  name : String
  speed : ℚ
deriving DecidableEq, Repr

def MASTER_HOST_NAME : String := "master"

/-- Translation of `simulation.hosts.by_prop("name", "master", True)`: every host whose
name differs from `"master"`. -/
def exec_hosts_of (hosts : List DHost) : List DHost :=
  hosts.filter (fun h => h.name ≠ MASTER_HOST_NAME)

/-- Translation of `master_hosts = hosts.by_prop("name", "master"); master_hosts[0] if
master_hosts else None`. -/
def master_host_of (hosts : List DHost) : Option DHost :=
  (hosts.filter (fun h => h.name = MASTER_HOST_NAME)).head?

instance dhostSpeedRel : DecidableRel (fun a b : DHost => b.speed ≤ a.speed) :=
  fun a b => inferInstanceAs (Decidable (b.speed ≤ a.speed))

/-- Translation of `OLB.schedule` target selection: among the exec hosts currently free,
sort by speed in decreasing order and take the first. -/
def olb_target (hosts : List DHost) (free : DHost → Bool) : Option DHost :=
  (List.insertionSort (fun a b => b.speed ≤ a.speed)
    ((exec_hosts_of hosts).filter free)).head?

instance dhostKeyRel (ect : DHost → ℚ) :
    DecidableRel (fun a b : DHost => ect a ≤ ect b) :=
  fun a b => inferInstanceAs (Decidable (ect a ≤ ect b))

/-- Translation of `MCT.schedule` target selection: a boundary task goes to the master
host when one exists; otherwise the exec hosts sorted by estimated
completion time, first one wins. -/
def mct_target (hosts : List DHost) (boundary : Bool) (ect : DHost → ℚ) :
    Option DHost :=
  match boundary, master_host_of hosts with
  | true, some m => some m
  | _, _ => (List.insertionSort (fun a b => ect a ≤ ect b) (exec_hosts_of hosts)).head?

theorem mem_exec_hosts_name (hosts : List DHost) (h : DHost)
    (hm : h ∈ exec_hosts_of hosts) : h.name ≠ MASTER_HOST_NAME := by
  have := (List.mem_filter.mp hm).2
  simpa using this

/-- C10.  The dynamic schedulers never place a non-boundary task on the
master host: OLB's pick (fastest free exec host), MCT's non-boundary pick
(exec host minimising ECT) and any host drawn from the batch scheduler's
`exec_hosts` list have a name other than `"master"`, while MCT's boundary
branch returns the master host itself when one exists (as do the `prepare`
preambles of OLB and the batch schedulers). -/
theorem c10_master_exclusion :
    (∀ (hosts : List DHost) (free : DHost → Bool) (h : DHost),
        olb_target hosts free = some h → h.name ≠ MASTER_HOST_NAME) ∧
      (∀ (hosts : List DHost) (ect : DHost → ℚ) (h : DHost),
        mct_target hosts false ect = some h → h.name ≠ MASTER_HOST_NAME) ∧
      (∀ (hosts : List DHost) (ect : DHost → ℚ) (m : DHost),
        master_host_of hosts = some m →
          mct_target hosts true ect = some m ∧ m.name = MASTER_HOST_NAME) ∧
      (∀ (hosts : List DHost) (i : ℕ) (hi : i < (exec_hosts_of hosts).length),
        ((exec_hosts_of hosts).get ⟨i, hi⟩).name ≠ MASTER_HOST_NAME) := by
  refine ⟨?_, ?_, ?_, ?_⟩
  · intro hosts free h hsel
    have hh : (List.insertionSort (fun a b : DHost => b.speed ≤ a.speed)
        ((exec_hosts_of hosts).filter free)).head? = some h := hsel
    have hmem : h ∈ List.insertionSort (fun a b : DHost => b.speed ≤ a.speed)
        ((exec_hosts_of hosts).filter free) :=
      List.mem_of_mem_head? (Option.mem_def.mpr hh)
    have hmem2 : h ∈ (exec_hosts_of hosts).filter free :=
      (List.perm_insertionSort _ _).mem_iff.mp hmem
    exact mem_exec_hosts_name hosts h (List.mem_of_mem_filter hmem2)
  · intro hosts ect h hsel
    unfold mct_target at hsel
    have hmem : h ∈ List.insertionSort (fun a b : DHost => ect a ≤ ect b)
        (exec_hosts_of hosts) := by
      cases hmh : master_host_of hosts with
      | none =>
        rw [hmh] at hsel
        have hh : (List.insertionSort (fun a b : DHost => ect a ≤ ect b)
            (exec_hosts_of hosts)).head? = some h := hsel
        exact List.mem_of_mem_head? (Option.mem_def.mpr hh)
      | some m =>
        rw [hmh] at hsel
        have hh : (List.insertionSort (fun a b : DHost => ect a ≤ ect b)
            (exec_hosts_of hosts)).head? = some h := hsel
        exact List.mem_of_mem_head? (Option.mem_def.mpr hh)
    have hmem2 : h ∈ exec_hosts_of hosts :=
      (List.perm_insertionSort _ _).mem_iff.mp hmem
    exact mem_exec_hosts_name hosts h hmem2
  · intro hosts ect m hmh
    constructor
    · unfold mct_target
      rw [hmh]
    · have hmem : m ∈ hosts.filter (fun h => h.name = MASTER_HOST_NAME) :=
        List.mem_of_mem_head? (by rw [master_host_of] at hmh; rw [hmh]; rfl)
      have := (List.mem_filter.mp hmem).2
      simpa using this
  · intro hosts i hi
    exact mem_exec_hosts_name hosts _ (List.get_mem _ i hi)

/-- C10 witness: on the two-host platform `[master, h1]` OLB and MCT place a
non-boundary task on `h1`, MCT sends a boundary task to `master`, and the
only exec host is not the master. -/
theorem c10_master_exclusion_witness :
    ((⟨"h1", 2⟩ : DHost).name ≠ MASTER_HOST_NAME) ∧
      ((⟨"master", 1⟩ : DHost).name = MASTER_HOST_NAME) := by
  constructor
  · exact c10_master_exclusion.1 [⟨"master", 1⟩, ⟨"h1", 2⟩] (fun _ => true)
      ⟨"h1", 2⟩ (by decide)
  · exact (c10_master_exclusion.2.2.1 [⟨"master", 1⟩, ⟨"h1", 2⟩] (fun _ => 0)
      ⟨"master", 1⟩ (by decide)).2

/-! ### HEFT ranku ordering (C2): `HEFTScheduler.heft_order` in
`algorithms/heft.py`.  The graph is the folded task graph: weighted nodes
(task name, amount) and weighted edges.  `task_ranku` replays the
reverse-topological fold of the source (`for task in
networkx.topological_sort(nxgraph, reverse=True)`); `heft_order` sorts all
nodes by decreasing `(ranku, name)` — the source's
`sorted(nodes, key=(ranku, name), reverse=True)`. -/

structure WTask where
  name : ℕ
  amount : ℚ
deriving DecidableEq, Repr

structure WEdge where
  src : ℕ
  dst : ℕ
  weight : ℚ
deriving DecidableEq, Repr

structure TaskGraph where
  nodes : List WTask
  edges : List WEdge

def maxOr0 : List ℚ → ℚ
  | [] => 0
  | x :: xs => xs.foldl max x

def ranku_step (g : TaskGraph) (ms bw lat : ℚ) (table : ℕ → ℚ) (t : WTask) : ℕ → ℚ :=
  fun n =>
    if n = t.name then
      t.amount / ms + maxOr0 ((g.edges.filter (fun e => e.src = t.name)).map
        (fun e => table e.dst + (e.weight / bw + lat)))
    else table n

def task_ranku (g : TaskGraph) (ms bw lat : ℚ) (rto : List WTask) : ℕ → ℚ :=
  rto.foldl (ranku_step g ms bw lat) (fun _ => 0)

def heftRel (table : ℕ → ℚ) (a b : WTask) : Prop :=
  table b.name < table a.name ∨ (table b.name = table a.name ∧ b.name ≤ a.name)

instance heftRelDec (table : ℕ → ℚ) : DecidableRel (heftRel table) := fun a b => by
  unfold heftRel
  infer_instance

instance heftRelTotal (table : ℕ → ℚ) : IsTotal WTask (heftRel table) := by
  constructor
  intro a b
  unfold heftRel
  rcases lt_trichotomy (table a.name) (table b.name) with h | h | h
  · right; left; exact h
  · rcases Nat.le_total a.name b.name with hn | hn
    · right; right; exact ⟨h, hn⟩
    · left; right; exact ⟨h.symm, hn⟩
  · left; left; exact h

instance heftRelTrans (table : ℕ → ℚ) : IsTrans WTask (heftRel table) := by
  constructor
  intro a b c hab hbc
  unfold heftRel at *
  rcases hab with h1 | ⟨h1, h1n⟩
  · rcases hbc with h2 | ⟨h2, h2n⟩
    · left; exact lt_trans h2 h1
    · left; exact lt_of_eq_of_lt h2 h1
  · rcases hbc with h2 | ⟨h2, h2n⟩
    · left; exact lt_of_lt_of_eq h2 h1
    · right; exact ⟨h2.trans h1, le_trans h2n h1n⟩

/-- heft_order: sort all nodes by decreasing `(ranku, name)`. -/
def heft_order (g : TaskGraph) (ms bw lat : ℚ) (rto : List WTask) : List WTask :=
  List.insertionSort (heftRel (task_ranku g ms bw lat rto)) g.nodes

theorem le_foldl_max (l : List ℚ) : ∀ (a : ℚ), a ≤ l.foldl max a := by
  induction l with
  | nil => intro a; exact le_refl a
  | cons y ys ih =>
    intro a
    rw [List.foldl_cons]
    exact le_trans (le_max_left a y) (ih (max a y))

theorem mem_le_foldl_max (l : List ℚ) : ∀ (a x : ℚ), x ∈ l → x ≤ l.foldl max a := by
  induction l with
  | nil => intro a x hx; simp at hx
  | cons y ys ih =>
    intro a x hx
    rw [List.foldl_cons]
    rcases List.mem_cons.mp hx with h | h
    · subst h
      exact le_trans (le_max_right a x) (le_foldl_max ys (max a x))
    · exact ih (max a y) x h

theorem mem_le_maxOr0 (l : List ℚ) (x : ℚ) (hx : x ∈ l) : x ≤ maxOr0 l := by
  cases l with
  | nil => simp at hx
  | cons y ys =>
    unfold maxOr0
    rcases List.mem_cons.mp hx with h | h
    · subst h; exact le_foldl_max ys x
    · exact mem_le_foldl_max ys y x h

theorem task_ranku_unchanged (g : TaskGraph) (ms bw lat : ℚ) (l : List WTask) :
    ∀ (init : ℕ → ℚ) (n : ℕ), (∀ t ∈ l, t.name ≠ n) →
      l.foldl (ranku_step g ms bw lat) init n = init n := by
  induction l with
  | nil => intro init n _; rfl
  | cons t l ih =>
    intro init n h
    rw [List.foldl_cons]
    rw [ih _ n (fun s hs => h s (List.mem_cons_of_mem _ hs))]
    unfold ranku_step
    rw [if_neg (fun hc => (h t (List.mem_cons_self t l)) hc.symm)]

theorem task_ranku_set (g : TaskGraph) (ms bw lat : ℚ) (l₁ : List WTask) (u : WTask)
    (l₂ : List WTask) (init : ℕ → ℚ) (hafter : ∀ t ∈ l₂, t.name ≠ u.name) :
    (l₁ ++ u :: l₂).foldl (ranku_step g ms bw lat) init u.name
      = u.amount / ms + maxOr0 ((g.edges.filter (fun e => e.src = u.name)).map
          (fun e => (l₁.foldl (ranku_step g ms bw lat) init) e.dst
            + (e.weight / bw + lat))) := by
  rw [List.foldl_append, List.foldl_cons]
  rw [task_ranku_unchanged g ms bw lat l₂ _ u.name hafter]
  unfold ranku_step
  rw [if_pos rfl]

theorem task_ranku_edge (g : TaskGraph) (ms bw lat : ℚ) (rto : List WTask)
    (e : WEdge) (he : e ∈ g.edges) (u v : WTask) (l₁ l₂ l₃ : List WTask)
    (hsplit : rto = l₁ ++ (v :: (l₂ ++ u :: l₃)))
    (hu : u.name = e.src) (hv : v.name = e.dst)
    (hnodup : (rto.map (fun t : WTask => t.name)).Nodup) :
    task_ranku g ms bw lat rto e.dst + (e.weight / bw + lat) + u.amount / ms
      ≤ task_ranku g ms bw lat rto e.src := by
  -- names appearing after v are distinct from v.name; names after u distinct from u.name
  have hsuffix : ((v :: (l₂ ++ u :: l₃)).map (fun t : WTask => t.name)).Nodup := by
    have htot : ((l₁ ++ (v :: (l₂ ++ u :: l₃))).map (fun t : WTask => t.name)).Nodup :=
      hsplit ▸ hnodup
    rw [List.map_append] at htot
    exact htot.of_append_right
  have hvnot : v.name ∉ ((l₂ ++ u :: l₃).map (fun t : WTask => t.name)) :=
    (List.nodup_cons.mp (by simpa using hsuffix)).1
  have hunot : u.name ∉ (l₃.map (fun t : WTask => t.name)) := by
    have h2 : ((l₂ ++ u :: l₃).map (fun t : WTask => t.name)).Nodup :=
      (List.nodup_cons.mp (by simpa using hsuffix)).2
    rw [List.map_append] at h2
    exact (List.nodup_cons.mp (by simpa using h2.of_append_right)).1
  have hafter_u : ∀ t ∈ l₃, t.name ≠ u.name := by
    intro t ht hc
    exact hunot (hc ▸ List.mem_map_of_mem (fun t : WTask => t.name) ht)
  have hafter_v : ∀ t ∈ u :: l₃, t.name ≠ v.name := by
    intro t ht hc
    apply hvnot
    rw [← hc]
    exact List.mem_map_of_mem (fun t : WTask => t.name) (List.mem_append_right l₂ ht)
  -- final value at u.name
  have hassoc : rto = (l₁ ++ v :: l₂) ++ u :: l₃ := by
    rw [hsplit]
    simp [List.append_assoc]
  have hset := task_ranku_set g ms bw lat (l₁ ++ v :: l₂) u l₃ (fun _ => 0) hafter_u
  have hsrc : task_ranku g ms bw lat rto u.name
      = u.amount / ms + maxOr0 ((g.edges.filter (fun e2 => e2.src = u.name)).map
          (fun e2 => ((l₁ ++ v :: l₂).foldl (ranku_step g ms bw lat) (fun _ => 0)) e2.dst
            + (e2.weight / bw + lat))) := by
    rw [task_ranku, hassoc]
    exact hset
  -- final value at v.name is the prefix value
  have hdst : task_ranku g ms bw lat rto v.name
      = ((l₁ ++ v :: l₂).foldl (ranku_step g ms bw lat) (fun _ => 0)) v.name := by
    rw [task_ranku, hassoc, List.foldl_append]
    exact task_ranku_unchanged g ms bw lat (u :: l₃) _ v.name hafter_v
  -- the candidate for edge e is in the max list
  have hmem : ((l₁ ++ v :: l₂).foldl (ranku_step g ms bw lat) (fun _ => 0)) e.dst
        + (e.weight / bw + lat)
      ∈ (g.edges.filter (fun e2 => e2.src = u.name)).map
          (fun e2 => ((l₁ ++ v :: l₂).foldl (ranku_step g ms bw lat) (fun _ => 0)) e2.dst
            + (e2.weight / bw + lat)) := by
    apply List.mem_map_of_mem
    rw [List.mem_filter]
    exact ⟨he, by simp [hu]⟩
  have hle := mem_le_maxOr0 _ _ hmem
  rw [← hu, ← hv]
  rw [hsrc, hdst]
  rw [← hv] at hle
  linarith

theorem sorted_indexOf_lt {α : Type _} [DecidableEq α] {r : α → α → Prop}
    [DecidableRel r] [IsTotal α r] (l : List α) (hs : List.Sorted r l) (u v : α)
    (hu : u ∈ l) (hv : v ∈ l) (hnr : ¬ r v u) : l.indexOf u < l.indexOf v := by
  have hul : l.indexOf u < l.length := List.indexOf_lt_length.mpr hu
  have hvl : l.indexOf v < l.length := List.indexOf_lt_length.mpr hv
  by_contra hge
  push_neg at hge
  rcases lt_or_eq_of_le hge with hlt | heqi
  · have hrel := hs.rel_get_of_lt (a := ⟨l.indexOf v, hvl⟩) (b := ⟨l.indexOf u, hul⟩) hlt
    rw [List.indexOf_get, List.indexOf_get] at hrel
    exact hnr hrel
  · have hvu : v = u := by
      rw [← List.indexOf_get (l := l) hvl, ← List.indexOf_get (l := l) hul]
      congr 1
      exact Fin.ext heqi
    subst hvu
    exact hnr ((IsTotal.total (r := r) v v).elim id id)

/-- C2 (amended).  With positive mean speed, bandwidth and latency,
nonnegative amounts and edge weights, and distinct task names, sorting all
tasks by descending `(ranku, name)` — `heft_order` — is a valid topological
order: for every edge `src → dst`, the source task appears strictly before
the destination task.  (`rto` is the reverse-topological iteration order
used by the source's ranku fold; the split hypothesis states that the edge's
destination is processed before its source.) -/
theorem c2_heft_order_topological (g : TaskGraph) (ms bw lat : ℚ) (rto : List WTask)
    (hms : 0 < ms) (hbw : 0 < bw) (hlat : 0 < lat)
    (hamounts : ∀ t ∈ rto, 0 ≤ t.amount)
    (hweights : ∀ e ∈ g.edges, 0 ≤ e.weight)
    (hnodup : (rto.map (fun t : WTask => t.name)).Nodup)
    (e : WEdge) (he : e ∈ g.edges) (u v : WTask)
    (hun : u ∈ g.nodes) (hvn : v ∈ g.nodes)
    (hu : u.name = e.src) (hv : v.name = e.dst)
    (l₁ l₂ l₃ : List WTask) (hsplit : rto = l₁ ++ (v :: (l₂ ++ u :: l₃))) :
    (heft_order g ms bw lat rto).indexOf u < (heft_order g ms bw lat rto).indexOf v := by
  have hedge := task_ranku_edge g ms bw lat rto e he u v l₁ l₂ l₃ hsplit hu hv hnodup
  have humem_rto : u ∈ rto := by
    rw [hsplit]
    exact List.mem_append_right _ (List.mem_cons_of_mem _
      (List.mem_append_right _ (List.mem_cons_self _ _)))
  have huamt : 0 ≤ u.amount := hamounts u humem_rto
  have hstrict : task_ranku g ms bw lat rto v.name < task_ranku g ms bw lat rto u.name := by
    rw [hu, hv]
    have hwpos : 0 ≤ e.weight / bw := div_nonneg (hweights e he) (le_of_lt hbw)
    have hupos : 0 ≤ u.amount / ms := div_nonneg huamt (le_of_lt hms)
    linarith
  have hnr : ¬ heftRel (task_ranku g ms bw lat rto) v u := by
    intro hr
    rcases hr with h | ⟨h, _⟩
    · exact absurd hstrict (lt_asymm h)
    · rw [h] at hstrict; exact lt_irrefl _ hstrict
  have hsorted : List.Sorted (heftRel (task_ranku g ms bw lat rto))
      (heft_order g ms bw lat rto) := List.sorted_insertionSort _ _
  have hperm := List.perm_insertionSort
    (heftRel (task_ranku g ms bw lat rto)) g.nodes
  exact sorted_indexOf_lt _ hsorted u v (hperm.mem_iff.mpr hun) (hperm.mem_iff.mpr hvn) hnr

/-- Counterexample DAG: `0 → 1`, both amounts 0, edge weight 0,
mean latency 0 (the spec's own scenario S1 uses zero latency links). -/
def c2g : TaskGraph := ⟨[⟨0, 0⟩, ⟨1, 0⟩], [⟨0, 1, 0⟩]⟩

def c2rto : List WTask := [⟨1, 0⟩, ⟨0, 0⟩]

theorem c2tab1 : task_ranku c2g 1 1 0 c2rto 1 = 0 := by
  norm_num [task_ranku, ranku_step, maxOr0, c2g, c2rto]

theorem c2tab0 : task_ranku c2g 1 1 0 c2rto 0 = 0 := by
  norm_num [task_ranku, ranku_step, maxOr0, c2g, c2rto]

/-- C2.  On the zero-cost DAG `0 → 1` every ranku ties at 0, and the
descending name tie-break of `heft_order` puts task 1 *before* its parent
task 0 — ordering by descending ranku is not a topological order for this
DAG. -/
theorem c2_heft_order_counterexample :
    heft_order c2g 1 1 0 c2rto = [⟨1, 0⟩, ⟨0, 0⟩] ∧
      ¬ ((heft_order c2g 1 1 0 c2rto).indexOf (⟨0, 0⟩ : WTask)
          < (heft_order c2g 1 1 0 c2rto).indexOf (⟨1, 0⟩ : WTask)) := by
  have horder : heft_order c2g 1 1 0 c2rto = [⟨1, 0⟩, ⟨0, 0⟩] := by
    unfold heft_order
    rw [show c2g.nodes = [(⟨0, 0⟩ : WTask), ⟨1, 0⟩] from rfl]
    norm_num [List.insertionSort, List.orderedInsert, heftRel, c2tab0, c2tab1]
  refine ⟨horder, ?_⟩
  rw [horder]
  decide

/-- Reverse-topological order and platform for the C2 witness DAG
`0 → 1` with positive amounts, weights and mean latency. -/
def c2wg : TaskGraph := ⟨[⟨0, 2⟩, ⟨1, 1⟩], [⟨0, 1, 1⟩]⟩

def c2wrto : List WTask := [⟨1, 1⟩, ⟨0, 2⟩]

/-- C2 witness: with positive mean latency the edge `0 → 1` is respected by
the heft order. -/
theorem c2_heft_order_topological_witness :
    (heft_order c2wg 1 1 1 c2wrto).indexOf (⟨0, 2⟩ : WTask)
      < (heft_order c2wg 1 1 1 c2wrto).indexOf (⟨1, 1⟩ : WTask) :=
  c2_heft_order_topological c2wg 1 1 1 c2wrto (by decide) (by decide) (by decide)
    (by decide) (by decide) (by decide) ⟨0, 1, 1⟩ (by decide) ⟨0, 2⟩ ⟨1, 1⟩
    (by decide) (by decide) rfl rfl [] [] [] rfl

/-! ### Batch Sufferage heuristic (C4): `BatchScheduler.schedule` and
`BatchSufferage.batch_heuristic` in `algorithms/batch.py`.  The ECT matrix
has one row per unscheduled batch task and one column per execution host;
`np.argmin` takes the first minimum, `np.partition(..., 1)[:, 1]` the second
order statistic, and sufferages are rounded to two decimals
(`np.round(min2_times - min_times, decimals=2)`) — except in the single-host
case, where `sufferages = min_times` unrounded. -/

/-- Translation of `np.argmin` on a row together with the minimum value: fold keeping the
first position of the smallest element. -/
def argmin_loop : List ℚ → ℕ → ℕ × ℚ → ℕ × ℚ
  | [], _, best => best
  | x :: xs, i, best => if x < best.2 then argmin_loop xs (i + 1) (i, x)
    else argmin_loop xs (i + 1) best

def np_argmin (row : List ℚ) : ℕ × ℚ :=
  match row with
  | [] => (0, 0)
  | x :: xs => argmin_loop xs 1 (0, x)

/-- Translation of `np.partition(row, 1)[1]`: the second order statistic — the minimum of
the row with one occurrence of its minimum removed. -/
def np_second (row : List ℚ) : ℚ :=
  (np_argmin (row.eraseIdx (np_argmin row).1)).2

/-- Translation of `np.round`'s half-to-even integer rounding. -/
def round_half_even (x : ℚ) : ℤ :=
  let f := ⌊x⌋
  let r := x - (f : ℚ)
  if r < 1/2 then f
  else if (1/2 : ℚ) < r then f + 1
  else if Even f then f else f + 1

/-- Translation of `np.round(x, decimals=2)`. -/
def np_round2 (x : ℚ) : ℚ := (round_half_even (x * 100) : ℚ) / 100

/-- The sufferage value of one ECT row as computed by
`BatchScheduler.schedule`: rounded difference of the two best ECTs when
there are at least two hosts, the best ECT itself for a single host. -/
def sufferage_value (nhosts : ℕ) (row : List ℚ) : ℚ :=
  if 1 < nhosts then np_round2 (np_second row - (np_argmin row).2)
  else (np_argmin row).2

/-- One entry of `possible_schedules`: `(batch index, best host index,
best ECT, sufferage)`. -/
def possible_schedules (ect : List (List ℚ)) (nhosts : ℕ) : List (ℕ × ℕ × ℚ × ℚ) :=
  (List.range ect.length).map (fun i =>
    (i, (np_argmin (ect.getD i [])).1, (np_argmin (ect.getD i [])).2,
      sufferage_value nhosts (ect.getD i [])))

/-- Strict lexicographic order on the `(sufferage, -index)` keys. -/
def keyLt (a b : ℚ × ℤ) : Prop := a.1 < b.1 ∨ (a.1 = b.1 ∧ a.2 < b.2)

instance keyLtDec : DecidableRel keyLt := fun a b => by
  unfold keyLt
  infer_instance

/-- Python `max(..., key=...)`: first element with the maximal key. -/
def py_max_by (key : (ℕ × ℕ × ℚ × ℚ) → ℚ × ℤ) :
    List (ℕ × ℕ × ℚ × ℚ) → Option (ℕ × ℕ × ℚ × ℚ)
  | [] => none
  | x :: xs => some (xs.foldl (fun best y => if keyLt (key best) (key y) then y else best) x)

/-- Translation of `BatchSufferage.batch_heuristic`:
`max(possible_schedules, key=lambda s: (s[3], -s[0]))[:-1]`. -/
def batch_sufferage_select (ect : List (List ℚ)) (nhosts : ℕ) : Option (ℕ × ℕ × ℚ) :=
  match py_max_by (fun s => (s.2.2.2, -(s.1 : ℤ))) (possible_schedules ect nhosts) with
  | none => none
  | some s => some (s.1, s.2.1, s.2.2.1)

theorem keyLt_trans {a b c : ℚ × ℤ} (h1 : keyLt a b) (h2 : keyLt b c) : keyLt a c := by
  rcases h1 with h1 | ⟨h1, h1b⟩ <;> rcases h2 with h2 | ⟨h2, h2b⟩
  · exact Or.inl (lt_trans h1 h2)
  · exact Or.inl (lt_of_lt_of_eq h1 h2)
  · exact Or.inl (lt_of_eq_of_lt h1 h2)
  · exact Or.inr ⟨h1.trans h2, lt_trans h1b h2b⟩

theorem keyLt_trichotomy (a b : ℚ × ℤ) : keyLt a b ∨ keyLt b a ∨ a = b := by
  rcases lt_trichotomy a.1 b.1 with h | h | h
  · exact Or.inl (Or.inl h)
  · rcases lt_trichotomy a.2 b.2 with h2 | h2 | h2
    · exact Or.inl (Or.inr ⟨h, h2⟩)
    · exact Or.inr (Or.inr (Prod.ext h h2))
    · exact Or.inr (Or.inl (Or.inr ⟨h.symm, h2⟩))
  · exact Or.inr (Or.inl (Or.inl h))

theorem keyLt_irrefl (a : ℚ × ℤ) : ¬ keyLt a a := by
  intro h
  rcases h with h | ⟨_, h⟩ <;> exact lt_irrefl _ h

/-- The element returned by `py_max_by` belongs to the list and no element
has a strictly larger key. -/
theorem py_max_by_spec (key : (ℕ × ℕ × ℚ × ℚ) → ℚ × ℤ)
    (l : List (ℕ × ℕ × ℚ × ℚ)) (m : ℕ × ℕ × ℚ × ℚ)
    (hm : py_max_by key l = some m) :
    m ∈ l ∧ ∀ x ∈ l, ¬ keyLt (key m) (key x) := by
  match l with
  | [] => exact absurd hm (by simp [py_max_by])
  | x :: xs =>
    have hfold : ∀ (ys : List (ℕ × ℕ × ℚ × ℚ)) (b : ℕ × ℕ × ℚ × ℚ),
        (ys.foldl (fun best y => if keyLt (key best) (key y) then y else best) b
            ∈ b :: ys) ∧
          (¬ keyLt (key (ys.foldl
              (fun best y => if keyLt (key best) (key y) then y else best) b)) (key b)) ∧
          (∀ z ∈ ys, ¬ keyLt (key (ys.foldl
              (fun best y => if keyLt (key best) (key y) then y else best) b)) (key z)) := by
      intro ys
      induction ys with
      | nil =>
        intro b
        refine ⟨List.mem_cons_self _ _, keyLt_irrefl _, ?_⟩
        intro z hz
        simp at hz
      | cons y ys ih =>
        intro b
        rw [List.foldl_cons]
        by_cases hk : keyLt (key b) (key y)
        · rw [if_pos hk]
          obtain ⟨hmem, hself, hall⟩ := ih y
          refine ⟨?_, ?_, ?_⟩
          · rcases List.mem_cons.mp hmem with h | h
            · rw [h]; exact List.mem_cons_of_mem _ (List.mem_cons_self _ _)
            · exact List.mem_cons_of_mem _ (List.mem_cons_of_mem _ h)
          · intro hbad
            exact hself (keyLt_trans hbad hk)
          · intro z hz
            rcases List.mem_cons.mp hz with h | h
            · exact h ▸ hself
            · exact hall z h
        · rw [if_neg hk]
          obtain ⟨hmem, hself, hall⟩ := ih b
          refine ⟨?_, hself, ?_⟩
          · rcases List.mem_cons.mp hmem with h | h
            · rw [h]; exact List.mem_cons_self _ _
            · exact List.mem_cons_of_mem _ (List.mem_cons_of_mem _ h)
          · intro z hz
            rcases List.mem_cons.mp hz with h | h
            · subst h
              intro hbad
              rcases keyLt_trichotomy (key b) (key z) with h1 | h1 | h1
              · exact hk h1
              · exact hself (keyLt_trans hbad h1)
              · rw [← h1] at hbad
                exact hself hbad
            · exact hall z h
    unfold py_max_by at hm
    injection hm with hm
    obtain ⟨hmem, hself, hall⟩ := hfold xs x
    rw [hm] at hmem hself hall
    refine ⟨hmem, ?_⟩
    intro z hz
    rcases List.mem_cons.mp hz with h | h
    · exact h ▸ hself
    · exact hall z h

/-- Membership in `possible_schedules` determines every component from the
batch index. -/
theorem possible_schedules_mem (ect : List (List ℚ)) (nhosts : ℕ)
    (s : ℕ × ℕ × ℚ × ℚ) (hs : s ∈ possible_schedules ect nhosts) :
    s.1 < ect.length ∧
      s = (s.1, (np_argmin (ect.getD s.1 [])).1, (np_argmin (ect.getD s.1 [])).2,
        sufferage_value nhosts (ect.getD s.1 [])) := by
  unfold possible_schedules at hs
  rcases List.mem_map.mp hs with ⟨i, hi, hsi⟩
  have hilen : i < ect.length := List.mem_range.mp hi
  subst hsi
  exact ⟨hilen, rfl⟩

/-- C4 (amended).  `BatchSufferage` selects the batch entry maximising the
key `(sufferage, -index)`: the rounded difference between the two best ECTs
when there are at least two hosts, ties broken towards the lowest batch
index, placed on the row's first-minimum host with its best ECT; with
exactly one execution host the sufferage *is* the best ECT, so the task
with the *largest* best-host ECT is selected first (MaxMin-like), not the
smallest. -/
theorem c4_sufferage_selection (ect : List (List ℚ)) (nhosts : ℕ) (t h : ℕ) (b : ℚ)
    (hsel : batch_sufferage_select ect nhosts = some (t, h, b)) :
    t < ect.length ∧
      h = (np_argmin (ect.getD t [])).1 ∧
      b = (np_argmin (ect.getD t [])).2 ∧
      (∀ j, j < ect.length →
        sufferage_value nhosts (ect.getD j []) ≤ sufferage_value nhosts (ect.getD t [])) ∧
      (nhosts = 1 → ∀ j, j < ect.length →
        (np_argmin (ect.getD j [])).2 ≤ (np_argmin (ect.getD t [])).2) := by
  unfold batch_sufferage_select at hsel
  cases hpm : py_max_by (fun s => (s.2.2.2, -(s.1 : ℤ))) (possible_schedules ect nhosts) with
  | none => rw [hpm] at hsel; exact absurd hsel (by simp)
  | some m =>
    rw [hpm] at hsel
    injection hsel with hsel
    obtain ⟨hmem, hmax⟩ := py_max_by_spec _ _ _ hpm
    obtain ⟨hlen, hform⟩ := possible_schedules_mem ect nhosts m hmem
    have hm4 : m.2.2.2 = sufferage_value nhosts (ect.getD m.1 []) :=
      congrArg (fun p : ℕ × ℕ × ℚ × ℚ => p.2.2.2) hform
    have hmax_suff : ∀ j, j < ect.length →
        sufferage_value nhosts (ect.getD j []) ≤ sufferage_value nhosts (ect.getD m.1 []) := by
      intro j hj
      have hjmem : (j, (np_argmin (ect.getD j [])).1, (np_argmin (ect.getD j [])).2,
          sufferage_value nhosts (ect.getD j [])) ∈ possible_schedules ect nhosts := by
        unfold possible_schedules
        exact List.mem_map.mpr ⟨j, List.mem_range.mpr hj, rfl⟩
      have hnot := hmax _ hjmem
      by_contra hlt
      push_neg at hlt
      apply hnot
      unfold keyLt
      left
      show m.2.2.2 < sufferage_value nhosts (ect.getD j [])
      rw [hm4]
      exact hlt
    have ht : m.1 = t := congrArg (fun p : ℕ × ℕ × ℚ => p.1) hsel
    have hh : m.2.1 = h := congrArg (fun p : ℕ × ℕ × ℚ => p.2.1) hsel
    have hb : m.2.2.1 = b := congrArg (fun p : ℕ × ℕ × ℚ => p.2.2) hsel
    have hm2 : m.2.1 = (np_argmin (ect.getD m.1 [])).1 :=
      congrArg (fun p : ℕ × ℕ × ℚ × ℚ => p.2.1) hform
    have hm3 : m.2.2.1 = (np_argmin (ect.getD m.1 [])).2 :=
      congrArg (fun p : ℕ × ℕ × ℚ × ℚ => p.2.2.1) hform
    subst ht
    subst hh
    subst hb
    refine ⟨hlen, hm2, hm3, hmax_suff, ?_⟩
    intro h1 j hj
    have hone := hmax_suff j hj
    have hsv : ∀ row, sufferage_value 1 row = (np_argmin row).2 := by
      intro row
      unfold sufferage_value
      rw [if_neg (by omega)]
    subst h1
    rw [hsv, hsv] at hone
    exact hone


/-- C4.  Single-host degenerate case: with ECT column `[5], [10]` the code
selects batch entry 1 — the task with the *larger* best ECT (10) — while
the claim's MinMin degeneration demands entry 0 (best ECT 5). -/
theorem c4_single_host_counterexample :
    batch_sufferage_select [[5], [10]] 1 = some (1, 0, 10) ∧ (1 : ℕ) ≠ 0 ∧
      (np_argmin (([[5], [10]] : List (List ℚ)).getD 0 [])).2
        < (np_argmin (([[5], [10]] : List (List ℚ)).getD 1 [])).2 := by
  refine ⟨by decide, by decide, by decide⟩

/-- C4 witness: the amended selection property at the concrete single-host
batch `[[5], [10]]`. -/
theorem c4_sufferage_selection_witness :
    1 < ([[5], [10]] : List (List ℚ)).length ∧
      0 = (np_argmin (([[5], [10]] : List (List ℚ)).getD 1 [])).1 ∧
      (10 : ℚ) = (np_argmin (([[5], [10]] : List (List ℚ)).getD 1 [])).2 ∧
      (∀ j, j < ([[5], [10]] : List (List ℚ)).length →
        sufferage_value 1 (([[5], [10]] : List (List ℚ)).getD j [])
          ≤ sufferage_value 1 (([[5], [10]] : List (List ℚ)).getD 1 [])) ∧
      (1 = 1 → ∀ j, j < ([[5], [10]] : List (List ℚ)).length →
        (np_argmin (([[5], [10]] : List (List ℚ)).getD j [])).2
          ≤ (np_argmin (([[5], [10]] : List (List ℚ)).getD 1 [])).2) :=
  c4_sufferage_selection [[5], [10]] 1 1 0 10 (by decide)

/-! ### Pseudo root/end insertion (C6):
`Taskflow._construct_connection_matrix` in `taskflow.py`.  The connection
matrix is a square array over the task header; `none` stands for `np.nan`
(no edge).  `roots`/`ends` are the all-NaN columns/rows, both computed
*before* any insertion; the TRUE_ROOT block is prepended first, then the
TRUE_END column is appended using the *stale* `ends` indices. -/

def allNone (l : List (Option ℚ)) : Bool := l.all (fun x => x.isNone)

def matCol (m : List (List (Option ℚ))) (j : ℕ) : List (Option ℚ) :=
  m.map (fun row => row.getD j none)

/-- Translation of `np.where(np.isnan(matrix).all(axis=0))[0]`: indices of all-NaN columns. -/
def root_indices (m : List (List (Option ℚ))) (ncols : ℕ) : List ℕ :=
  (List.range ncols).filter (fun j => allNone (matCol m j))

/-- Translation of `np.where(np.isnan(matrix).all(axis=1))[0]`: indices of all-NaN rows. -/
def end_indices (m : List (List (Option ℚ))) : List ℕ :=
  (List.range m.length).filter (fun i => allNone (m.getD i []))

/-- Translation of the pseudo-root/pseudo-end block of
`_construct_connection_matrix` (taskflow.py lines 88–110): compute `roots`
and `ends` on the input matrix; with several roots prepend the TRUE_ROOT row
(zero entries at `roots`) and a NaN column and extend the header; with
several ends append a column with zero entries at the *original* `ends` row
indices (indices into the already shifted matrix), extend the header, and
append an all-NaN TRUE_END row. -/
def add_pseudo (header : List String) (m : List (List (Option ℚ))) :
    List String × List (List (Option ℚ)) :=
  let roots := root_indices m header.length
  let ends := end_indices m
  let hm1 :=
    if 1 < roots.length then
      let rootRow := (List.range header.length).map
        (fun i => if i ∈ roots then some (0 : ℚ) else none)
      ("<TRUE_ROOT>" :: header, (rootRow :: m).map (fun row => (none : Option ℚ) :: row))
    else (header, m)
  if 1 < ends.length then
    let endCol := (List.range hm1.1.length).map
      (fun i => if i ∈ ends then some (0 : ℚ) else none)
    (hm1.1 ++ ["<TRUE_END>"],
      ((hm1.2.zip endCol).map (fun rc => rc.1 ++ [rc.2]))
        ++ [List.replicate (hm1.1.length + 1) (none : Option ℚ)])
  else hm1

/-- Workflow with two roots `r1, r2` and two ends `e1, e2`
(complete bipartite edges), tasks listed `[r1, r2, e1, e2]`. -/
def c6hdr : List String := ["r1", "r2", "e1", "e2"]

def c6mat : List (List (Option ℚ)) :=
  [[none, none, some 1, some 1],
   [none, none, some 1, some 1],
   [none, none, none, none],
   [none, none, none, none]]

/-- Workflow with one root and two ends (no TRUE_ROOT shift). -/
def c6hdr2 : List String := ["r", "e1", "e2"]

def c6mat2 : List (List (Option ℚ)) :=
  [[none, some 1, some 1],
   [none, none, none],
   [none, none, none]]

/-- C6.  With several roots *and* several ends the TRUE_END edges attach to
the wrong rows: `ends = [2, 3]` is computed before the TRUE_ROOT row shifts
every row index by one, so the zero entries of the appended column land on
rows 2 and 3 of the *new* matrix (tasks `r2` and `e1`), leaving `e2`
(row 4) and the TRUE_END row (row 5) both as sinks — two sinks instead of
the claimed exactly one.  Without the root shift (one root, several ends)
the construction is correct: exactly one source and one sink. -/
theorem c6_true_end_misindexed :
    root_indices c6mat c6hdr.length = [0, 1] ∧
      end_indices c6mat = [2, 3] ∧
      end_indices (add_pseudo c6hdr c6mat).2 = [4, 5] ∧
      (root_indices (add_pseudo c6hdr c6mat).2 (add_pseudo c6hdr c6mat).1.length).length
        = 1 ∧
      (end_indices (add_pseudo c6hdr2 c6mat2).2).length = 1 ∧
      (root_indices (add_pseudo c6hdr2 c6mat2).2 (add_pseudo c6hdr2 c6mat2).1.length).length
        = 1 := by
  refine ⟨by decide, by decide, by decide, by decide, by decide, by decide⟩
